import Mathlib

/-!
Shallow embedding of the similarity-matching core of `veritas_utils.py`
(functions `normalize_text`, `word_chunks`, `compute_matches`,
`highlight_text`), together with theorems settling the specification
claims about them.

Modelling conventions:
* Python strings are Lean `String`s; character-level work happens on
  `String.data : List Char`.
* The Unicode-aware character classes of Python (`\w`, `\s`, `str.lower`) are
  modelled on the ASCII range plus the explicit accented letters named in
  the regex of the normalizer; normalized text in this repository only contains
  those characters, and no claim depends on other code points.
* Python `float` scores are modelled as `ℚ` (exact arithmetic; every
  claim is structural, none depends on rounding).
* A Python function that may loop forever returns `Option` (`none` =
  divergence); one that may raise returns `Except String` (the payload
  names the exception).
-/

namespace Veritas

/-- Python `\s` (whitespace) on the ASCII range. -/
def pyIsSpace (c : Char) : Bool :=
  c = ' ' || c = '\t' || c = '\n' || c = '\r' || c = '\x0b' || c = '\x0c'

/-- The accented letters explicitly kept by the regex of the normalizer
`[^\w\sáàâãéèêíïóôõöúçñ]`. -/
def isAccent (c : Char) : Bool :=
  c = 'á' || c = 'à' || c = 'â' || c = 'ã' || c = 'é' || c = 'è' || c = 'ê' ||
  c = 'í' || c = 'ï' || c = 'ó' || c = 'ô' || c = 'õ' || c = 'ö' || c = 'ú' ||
  c = 'ç' || c = 'ñ'

/-- Python `\w` (word character): alphanumeric or underscore; the accented
letters of the normalizer are word characters in the Unicode mode of Python. -/
def pyIsWord (c : Char) : Bool :=
  c.isAlphanum || c = '_' || isAccent c

/-- Splitting a character list at separator characters, discarding empty
pieces — the behaviour of `str.split()` in Python (for `isSep = pyIsSpace`)
and of `re.findall` over maximal word-character runs (for
`isSep = fun c => !pyIsWord c`).  `acc` holds the current piece reversed. -/
def splitSepAux (isSep : Char → Bool) : List Char → List Char → List (List Char)
  | acc, [] => if acc = [] then [] else [acc.reverse]
  | acc, c :: cs =>
    if isSep c then
      if acc = [] then splitSepAux isSep [] cs
      else acc.reverse :: splitSepAux isSep [] cs
    else
      splitSepAux isSep (c :: acc) cs

def splitSep (isSep : Char → Bool) (cs : List Char) : List (List Char) :=
  splitSepAux isSep [] cs

/-- Python `text.split()` — split on whitespace runs, no empty tokens. -/
def pySplit (s : String) : List String :=
  (splitSep pyIsSpace s.data).map String.mk

/-- Python `" ".join(ws)` at the character level. -/
def joinSpChars : List (List Char) → List Char
  | [] => []
  | [w] => w
  | w :: ws => w ++ ' ' :: joinSpChars ws

/-- Python `" ".join(ws)`. -/
def joinSp (ws : List String) : String :=
  String.mk (joinSpChars (ws.map String.data))

/-- One pass collapsing whitespace runs to a single `' '`
(`re.sub(r"\s+", " ", s)`); the flag records whether the previous
character was whitespace. -/
def collapseWsAux : Bool → List Char → List Char
  | _, [] => []
  | prevSpace, c :: cs =>
    if pyIsSpace c then
      if prevSpace then collapseWsAux true cs
      else ' ' :: collapseWsAux true cs
    else c :: collapseWsAux false cs

/-- Python `str.strip()` after whitespace collapsing. -/
def stripSpaces (cs : List Char) : List Char :=
  ((cs.dropWhile pyIsSpace).reverse.dropWhile pyIsSpace).reverse

/-- Function `normalize_text` (veritas_utils.py lines 42–46): lowercase, replace every
character outside `[\w\s` + accents `]` by a space, collapse whitespace
runs, strip the ends. -/
def normalize_text (s : String) : String :=
  String.mk (stripSpaces (collapseWsAux false
    ((s.data.map Char.toLower).map
      (fun c => if pyIsWord c || pyIsSpace c || isAccent c then c else ' '))))

/-- The `while i < len(words)` loop of `word_chunks` (lines 53–59), with
explicit fuel: `none` means the loop did not finish within `fuel`
iterations (so with ample fuel, `none` models divergence). -/
def chunkLoop (words : List String) (cw sw : Nat) : Nat → Nat → Option (List String)
  | 0, _ => none
  | fuel + 1, i =>
    if i < words.length then
      let chunk := (words.drop i).take cw
      if chunk.length < max 10 (cw / 3) then some []
      else
        match chunkLoop words cw sw fuel (i + sw) with
        | none => none
        | some rest => some (joinSp chunk :: rest)
    else some []

/-- Function `word_chunks` (lines 48–62).  `words.length + 1` iterations of fuel are
enough whenever `1 ≤ stride_words` (proved below); `none` models the
loop running forever (possible when `stride_words = 0`). -/
def word_chunks (text : String) (chunk_words stride_words : Nat) : Option (List String) :=
  if pySplit text = [] then some []
  else
    match chunkLoop (pySplit text) chunk_words stride_words ((pySplit text).length + 1) 0 with
    | none => none
    | some chunks =>
      if chunks = [] ∧ 10 ≤ (pySplit text).length then some [joinSp (pySplit text)]
      else some chunks

deriving instance DecidableEq for Except

/-- The `Match` dataclass (lines 64–69). -/
structure Match where
  query_chunk : String
  source_doc : String
  source_chunk : String
  score : ℚ
deriving DecidableEq, Repr

/-- The deduplication key of a match, `(m.source_doc, m.source_chunk)`
(line 120). -/
def keyOf (m : Match) : String × String :=
  (m.source_doc, m.source_chunk)

/-- Calling `normalize_text` with a Python `None` argument: `s.lower()`
raises `AttributeError` on `None`, so the dynamically-typed call is
modelled on `Option String`, with `none` standing for `None`. -/
def normalize_text_py : Option String → Except String String
  | none => Except.error "AttributeError"
  | some s => Except.ok (normalize_text s)

/-- Word tokens of one chunk as seen by `TfidfVectorizer` with its default
`token_pattern = \b\w\w+\b`: maximal word-character runs of length at
least two.  (scikit-learn is an external dependency; this models its
documented default analyzer.) -/
def vecTokens (s : String) : List String :=
  ((splitSep (fun c => !pyIsWord c) s.data).filter (fun w => 2 ≤ w.length)).map String.mk

/-- The fitted vocabulary over all texts for `ngram_range=(1,2)`,
`min_df=1`: every unigram and every bigram of consecutive tokens of any
text (as a multiset; only emptiness is observed by the model).
`CountVectorizer.fit_transform` raises
`ValueError: empty vocabulary` exactly when this list is empty. -/
def vocabularyOf (texts : List String) : List String :=
  texts.flatMap (fun t =>
    let toks := vecTokens t
    toks ++ toks.zipWith (fun a b => a ++ " " ++ b) toks.tail)

/-- Maximum of a nonempty numpy row, `row.max()` (the empty case never occurs in
`compute_matches`; `0` is a junk value for it). -/
def listMax : List ℚ → ℚ
  | [] => 0
  | x :: xs => xs.foldl max x

/-- Lines 100–101: `best_scores = sim.max(axis=1);
global_sim = float(best_scores.mean())`, for a similarity matrix with
`nq` rows and `nd` columns given by the score kernel `σ`. -/
def globalSimOf (σ : Nat → Nat → ℚ) (nq nd : Nat) : ℚ :=
  (((List.range nq).map (fun i => listMax ((List.range nd).map (σ i)))).sum) / (nq : ℚ)

/-- Insert index `j` into a list of indices kept sorted by strictly
descending row score; on ties the earlier-inserted (smaller) index stays
first. -/
def insertIdxDesc (row : Nat → ℚ) (j : Nat) : List Nat → List Nat
  | [] => [j]
  | k :: ks => if row k < row j then j :: k :: ks else k :: insertIdxDesc row j ks

/-- Line 106, `row.argsort()[::-1]`: the column indices `0..nd-1` sorted
by descending score.  numpy argsort uses an unstable quicksort, so its
tie order is unspecified; the model fixes ties by ascending index.  No
claim proved below depends on the tie order. -/
def argsortDesc (row : Nat → ℚ) (nd : Nat) : List Nat :=
  (List.range nd).foldl (fun acc j => insertIdxDesc row j acc) []

/-- The candidate matches appended by the nested loop of lines 103–116:
for each query-chunk row `i`, the first `top_k` indices of the
descending argsort, kept when `score >= threshold`. -/
def candidateMatches (σ : Nat → Nat → ℚ) (q_chunks : List String)
    (doc_chunk_map : List (String × String)) (top_k : Nat) (threshold : ℚ) : List Match :=
  (List.range q_chunks.length).flatMap (fun i =>
    ((argsortDesc (σ i) doc_chunk_map.length).take top_k).filterMap (fun j =>
      if threshold ≤ σ i j then
        some { query_chunk := q_chunks.getD i ""
               source_doc := (doc_chunk_map.getD j ("", "")).1
               source_chunk := (doc_chunk_map.getD j ("", "")).2
               score := σ i j }
      else none))

/-- One iteration of the dedup loop of lines 118–122 over an
insertion-ordered dict modelled as an association list:
`if key not in uniq or m.score > uniq[key].score: uniq[key] = m`.
Overwriting keeps the key at its original position, as a Python dict
does. -/
def uniqStep (acc : List ((String × String) × Match)) (m : Match) :
    List ((String × String) × Match) :=
  match acc.find? (fun p => decide (p.1 = keyOf m)) with
  | none => acc ++ [(keyOf m, m)]
  | some p =>
    if p.2.score < m.score then
      acc.map (fun q => if q.1 = keyOf m then (keyOf m, m) else q)
    else acc

/-- The dict `uniq` after the whole dedup loop. -/
def uniqDict (ms : List Match) : List ((String × String) × Match) :=
  ms.foldl uniqStep []

/-- Specification of what the dedup loop keeps for one key: the first
candidate attaining the maximal score among candidates with that key
(later candidates replace only on strictly greater score). -/
def keptFor (key : String × String) : List Match → Option Match
  | [] => none
  | c :: l =>
    if keyOf c = key then
      match keptFor key l with
      | none => some c
      | some b => if c.score < b.score then some b else some c
    else keptFor key l

/-- Merge of two optional best candidates: the one with the strictly
greater score wins, the left (earlier) one wins ties. -/
def combineBest : Option Match → Option Match → Option Match
  | none, y => y
  | some b, none => some b
  | some b, some c => if b.score < c.score then some c else some b

/-- The value stored under `key` in a dict modelled as an association
list. -/
def lookupKey (key : String × String) (acc : List ((String × String) × Match)) :
    Option Match :=
  (acc.find? (fun p => decide (p.1 = key))).map Prod.snd

/-- Line 123: `sorted(uniq.values(), key=lambda x: x.score, reverse=True)`.
Python sorting is stable; insertion before the first element of
not-larger score reproduces the stable descending order. -/
def sortMatchesDesc (ms : List Match) : List Match :=
  List.insertionSort (fun a b => b.score ≤ a.score) ms

/-- Lines 84–88: collect `(docname, chunk)` pairs over the corpus in
insertion order; `none` if chunking any document diverges. -/
def docChunkMapOf (corpus_docs : List (String × String)) (cw sw : Nat) :
    Option (List (String × String)) :=
  match corpus_docs with
  | [] => some []
  | (docname, doctext) :: rest => do
    let cs ← word_chunks (normalize_text doctext) cw sw
    let tail ← docChunkMapOf rest cw sw
    pure (cs.map (fun ch => (docname, ch)) ++ tail)

/-- Function `compute_matches` (lines 71–124).  The numeric TF-IDF cosine kernel of
scikit-learn is abstracted as `σ i j`, the similarity of query chunk `i`
and corpus chunk `j` — the claims below hold for every kernel, and the
branch structure (degenerate early returns, the empty-vocabulary
`ValueError` of `fit_transform`) is modelled concretely.
`none` = nontermination of a chunking loop; `Except.error` = a raised
exception. -/
def compute_matches (σ : Nat → Nat → ℚ) (query_text : String)
    (corpus_docs : List (String × String)) (chunk_words stride_words top_k : Nat)
    (threshold : ℚ) : Option (Except String (ℚ × List Match)) := do
  let q_chunks ← word_chunks (normalize_text query_text) chunk_words stride_words
  if q_chunks = [] then return Except.ok (0, [])
  else do
    let doc_chunk_map ← docChunkMapOf corpus_docs chunk_words stride_words
    if doc_chunk_map = [] then return Except.ok (0, [])
    else
      let all_texts := q_chunks ++ doc_chunk_map.map Prod.snd
      if vocabularyOf all_texts = [] then
        return Except.error "ValueError: empty vocabulary"
      else
        let global_sim := globalSimOf σ q_chunks.length doc_chunk_map.length
        let cands := candidateMatches σ q_chunks doc_chunk_map top_k threshold
        return Except.ok (global_sim, sortMatchesDesc ((uniqDict cands).map Prod.snd))

/-! #### Highlighter -/

/-- Case-insensitive literal prefix match (`re.IGNORECASE` on the ASCII
range): `some t.length` when `t` is a prefix of `cs` up to case. -/
def stripPrefixCI : List Char → List Char → Option Nat
  | [], _ => some 0
  | _ :: _, [] => none
  | t :: ts, c :: cs =>
    if t.toLower = c.toLower then (stripPrefixCI ts cs).map (· + 1) else none

/-- Match the pattern `tok₁ \s+ tok₂ \s+ … \s+ tokₙ` at the head of `cs`,
returning the number of characters consumed.  `\s+` is greedy and each
following token starts with a non-space character, so the maximal
whitespace run is the unique viable choice. -/
def matchTokensAt : List (List Char) → List Char → Option Nat
  | [], _ => some 0
  | t :: ts, cs =>
    match stripPrefixCI t cs with
    | none => none
    | some n =>
      match ts with
      | [] => some n
      | _ :: _ =>
        let w := ((cs.drop n).takeWhile pyIsSpace).length
        if w = 0 then none
        else
          match matchTokensAt ts ((cs.drop n).drop w) with
          | none => none
          | some k => some (n + w + k)

/-- Substitution `re.sub(pattern, wrap, out)`: scan left to right, wrap every
(non-overlapping) occurrence in `⟦ … ⟧`, copy everything else.  Fuel is
the input length; every step either copies one character or consumes a
nonempty match.  (A zero-width match cannot arise from the snippets used
by `highlight_text`, whose first token is nonempty; that branch copies
one character.) -/
def subScan (toks : List (List Char)) : Nat → List Char → List Char
  | 0, cs => cs
  | _ + 1, [] => []
  | fuel + 1, c :: cs =>
    match matchTokensAt toks (c :: cs) with
    | some n =>
      if n = 0 then c :: subScan toks fuel cs
      else '⟦' :: ((c :: cs).take n ++ '⟧' :: subScan toks fuel ((c :: cs).drop n))
    | none => c :: subScan toks fuel cs

/-- The compiled flexible-whitespace substitution applied to a string. -/
def pyReSubFlex (toks : List (List Char)) (s : String) : String :=
  String.mk (subScan toks s.data.length s.data)

/-- Decides whether the pattern matches anywhere in `cs`. -/
def hasFlexMatch (toks : List (List Char)) : List Char → Bool
  | [] => (matchTokensAt toks []).isSome
  | c :: cs => (matchTokensAt toks (c :: cs)).isSome || hasFlexMatch toks cs

/-- The first up-to-12 words of the query chunk of a match
(line 129–130): `" ".join(words[: min(12, len(words))])`. -/
def snippetOf (m : Match) : String :=
  joinSp ((pySplit m.query_chunk).take (min 12 (pySplit m.query_chunk).length))

/-- The search-pattern tokens of that snippet.  The snippet is a
single-space join of whitespace-free words, so splitting it at
whitespace runs recovers exactly those words. -/
def snippetTokens (m : Match) : List (List Char) :=
  ((pySplit m.query_chunk).take (min 12 (pySplit m.query_chunk).length)).map String.data

/-- The body of the `for m in matches[:20]` loop of `highlight_text`
(lines 128–137): snippets shorter than 20 characters are skipped, and
the pattern always compiles (it is an escaped literal interleaved with
`\s+`), so the `except re.error: continue` branch is unreachable; a
pattern that matches nowhere leaves `out` unchanged. -/
def highlightStep (out : String) (m : Match) : String :=
  if (snippetOf m).length < 20 then out
  else pyReSubFlex (snippetTokens m) out

/-- Function `highlight_text` (lines 126–138).  The Python parameter `matches` is
renamed `ms` (`matches` is a Lean keyword). -/
def highlight_text (query_text : String) (ms : List Match) : String :=
  (ms.take 20).foldl highlightStep query_text

/-! ### Basic facts about splitting and joining -/

theorem splitSepAux_nil (isSep : Char → Bool) (acc : List Char) :
    splitSepAux isSep acc [] = if acc = [] then [] else [acc.reverse] := rfl

theorem splitSepAux_cons (isSep : Char → Bool) (acc : List Char) (c : Char) (cs : List Char) :
    splitSepAux isSep acc (c :: cs) =
      if isSep c then
        if acc = [] then splitSepAux isSep [] cs
        else acc.reverse :: splitSepAux isSep [] cs
      else splitSepAux isSep (c :: acc) cs := rfl

theorem splitSepAux_wf (isSep : Char → Bool) :
    ∀ (cs acc : List Char), (∀ c ∈ acc, isSep c = false) →
      ∀ w ∈ splitSepAux isSep acc cs, w ≠ [] ∧ ∀ c ∈ w, isSep c = false := by
  intro cs
  induction cs with
  | nil =>
    intro acc hacc w hw
    unfold splitSepAux at hw
    split_ifs at hw with h
    · simp at hw
    · simp only [List.mem_singleton] at hw
      subst hw
      refine ⟨by simpa using h, ?_⟩
      intro c hc
      exact hacc c (List.mem_reverse.mp hc)
  | cons d ds ih =>
    intro acc hacc w hw
    unfold splitSepAux at hw
    split_ifs at hw with hsep hnil
    · exact ih [] (by simp) w hw
    · rcases List.mem_cons.mp hw with h | h
      · subst h
        exact ⟨by simpa using hnil, fun c hc => hacc c (List.mem_reverse.mp hc)⟩
      · exact ih [] (by simp) w h
    · refine ih (d :: acc) ?_ w hw
      intro c hc
      rcases List.mem_cons.mp hc with h | h
      · subst h; simpa using hsep
      · exact hacc c h

theorem splitSep_wf (isSep : Char → Bool) (cs : List Char) :
    ∀ w ∈ splitSep isSep cs, w ≠ [] ∧ ∀ c ∈ w, isSep c = false :=
  splitSepAux_wf isSep cs [] (by simp)

theorem pySplit_wf (s : String) :
    ∀ w ∈ pySplit s, w.data ≠ [] ∧ ∀ c ∈ w.data, pyIsSpace c = false := by
  intro w hw
  unfold pySplit at hw
  rcases List.mem_map.mp hw with ⟨l, hl, rfl⟩
  simpa using splitSep_wf pyIsSpace s.data l hl

theorem splitSepAux_append (isSep : Char → Bool) :
    ∀ (w acc cs : List Char), (∀ c ∈ w, isSep c = false) →
      splitSepAux isSep acc (w ++ cs) = splitSepAux isSep (w.reverse ++ acc) cs := by
  intro w
  induction w with
  | nil => intro acc cs _; simp
  | cons d ds ih =>
    intro acc cs hw
    have hd : isSep d = false := hw d (by simp)
    rw [List.cons_append, splitSepAux_cons, if_neg (by simp [hd]),
      ih (d :: acc) cs (fun c hc => hw c (by simp [hc]))]
    simp

theorem splitSep_joinSpChars :
    ∀ ws : List (List Char),
      (∀ w ∈ ws, w ≠ [] ∧ ∀ c ∈ w, pyIsSpace c = false) →
      splitSep pyIsSpace (joinSpChars ws) = ws := by
  intro ws
  induction ws with
  | nil => intro _; rfl
  | cons w ws ih =>
    intro h
    obtain ⟨hne, hnosp⟩ := h w (by simp)
    cases ws with
    | nil =>
      show splitSepAux pyIsSpace [] (joinSpChars [w]) = [w]
      have : joinSpChars [w] = w ++ [] := by simp [joinSpChars]
      rw [this, splitSepAux_append pyIsSpace w [] [] hnosp]
      unfold splitSepAux
      rw [if_neg (by simpa using hne)]
      simp
    | cons w' ws' =>
      show splitSepAux pyIsSpace [] (joinSpChars (w :: w' :: ws')) = w :: w' :: ws'
      have hjoin : joinSpChars (w :: w' :: ws') = w ++ ' ' :: joinSpChars (w' :: ws') := rfl
      rw [hjoin, splitSepAux_append pyIsSpace w [] _ hnosp]
      unfold splitSepAux
      rw [if_pos (by simp [pyIsSpace])]
      rw [if_neg (by simpa using hne)]
      rw [List.append_nil, List.reverse_reverse]
      exact congrArg (w :: ·) (ih (fun u hu => h u (by simp [hu])))

theorem mk_data (s : String) : String.mk s.data = s := rfl

theorem pySplit_joinSp (ws : List String)
    (h : ∀ w ∈ ws, w.data ≠ [] ∧ ∀ c ∈ w.data, pyIsSpace c = false) :
    pySplit (joinSp ws) = ws := by
  unfold pySplit joinSp
  have hdata : (String.mk (joinSpChars (ws.map String.data))).data
      = joinSpChars (ws.map String.data) := rfl
  rw [hdata, splitSep_joinSpChars (ws.map String.data) ?_]
  · rw [List.map_map]
    exact List.map_id'' (fun w => mk_data w) ws
  · intro w hw
    rcases List.mem_map.mp hw with ⟨u, hu, rfl⟩
    exact h u hu

/-! ### Facts about the chunking loop -/

theorem chunkLoop_zero (words : List String) (cw sw i : Nat) :
    chunkLoop words cw sw 0 i = none := rfl

theorem chunkLoop_succ (words : List String) (cw sw fuel i : Nat) :
    chunkLoop words cw sw (fuel + 1) i =
      if i < words.length then
        if ((words.drop i).take cw).length < max 10 (cw / 3) then some []
        else
          match chunkLoop words cw sw fuel (i + sw) with
          | none => none
          | some rest => some (joinSp ((words.drop i).take cw) :: rest)
      else some [] := rfl

/-- With `1 ≤ stride_words` the loop index grows by at least one per
iteration, so `words.length + 1` iterations of fuel always suffice. -/
theorem chunkLoop_total (words : List String) (cw sw : Nat) (hsw : 1 ≤ sw) :
    ∀ fuel i : Nat, 1 ≤ fuel → words.length + 1 ≤ i + fuel →
      (chunkLoop words cw sw fuel i).isSome := by
  intro fuel
  induction fuel with
  | zero => intro i h _; omega
  | succ fuel ih =>
    intro i _ h
    rw [chunkLoop_succ]
    by_cases hi : i < words.length
    · rw [if_pos hi]
      by_cases hshort : ((words.drop i).take cw).length < max 10 (cw / 3)
      · rw [if_pos hshort]; simp
      · rw [if_neg hshort]
        rcases Option.isSome_iff_exists.mp (ih (i + sw) (by omega) (by omega)) with ⟨r, hr⟩
        rw [hr]; simp
    · rw [if_neg hi]; simp

/-- Characterization of a terminating run of the loop started at index `i`:
the `k`-th emitted chunk is the window of up to `cw` words starting at word
`i + k * sw`, every emitted window reaches the minimum length
`max 10 (cw / 3)`, and the loop stopped either past the end of the word
list or at the first window below the minimum length. -/
theorem chunkLoop_char (words : List String) (cw sw : Nat) :
    ∀ (fuel i : Nat) (r : List String), chunkLoop words cw sw fuel i = some r →
      (∀ k (hk : k < r.length),
          r.get ⟨k, hk⟩ = joinSp ((words.drop (i + k * sw)).take cw) ∧
          max 10 (cw / 3) ≤ ((words.drop (i + k * sw)).take cw).length ∧
          i + k * sw < words.length) ∧
      (i + r.length * sw < words.length →
          ((words.drop (i + r.length * sw)).take cw).length < max 10 (cw / 3)) := by
  intro fuel
  induction fuel with
  | zero => intro i r hr; simp [chunkLoop_zero] at hr
  | succ fuel ih =>
    intro i r hr
    rw [chunkLoop_succ] at hr
    by_cases hi : i < words.length
    · rw [if_pos hi] at hr
      by_cases hshort : ((words.drop i).take cw).length < max 10 (cw / 3)
      · rw [if_pos hshort] at hr
        have hre : r = [] := by simpa using hr.symm
        subst hre
        constructor
        · intro k hk; simp at hk
        · intro _
          simpa using hshort
      · rw [if_neg hshort] at hr
        cases hrec : chunkLoop words cw sw fuel (i + sw) with
        | none => rw [hrec] at hr; simp at hr
        | some rest =>
          rw [hrec] at hr
          have hre : r = joinSp ((words.drop i).take cw) :: rest := by simpa using hr.symm
          subst hre
          obtain ⟨ih1, ih2⟩ := ih (i + sw) rest hrec
          constructor
          · intro k hk
            cases k with
            | zero =>
              refine ⟨by simp, ?_, by simpa using hi⟩
              simpa using Nat.le_of_not_lt hshort
            | succ k =>
              have hk' : k < rest.length := by simpa using hk
              have harith : i + (k + 1) * sw = i + sw + k * sw := by ring
              have hmain := ih1 k hk'
              rw [List.get_cons_succ, harith]
              exact hmain
          · intro hlen
            have harith : i + (joinSp ((words.drop i).take cw) :: rest).length * sw
                = i + sw + rest.length * sw := by simp [List.length_cons]; ring
            rw [harith] at hlen ⊢
            exact ih2 hlen
    · rw [if_neg hi] at hr
      have hre : r = [] := by simpa using hr.symm
      subst hre
      constructor
      · intro k hk; simp at hk
      · intro h; simp at h; omega

/-- Unfolding `word_chunks` into its loop result and the fallback rule. -/
theorem word_chunks_eq_loop (text : String) (cw sw : Nat) (chunks : List String)
    (h : word_chunks text cw sw = some chunks) :
    ∃ lc, chunkLoop (pySplit text) cw sw ((pySplit text).length + 1) 0 = some lc ∧
      (lc ≠ [] → chunks = lc) ∧
      (lc = [] → 10 ≤ (pySplit text).length → chunks = [joinSp (pySplit text)]) ∧
      (lc = [] → (pySplit text).length < 10 → chunks = []) := by
  unfold word_chunks at h
  by_cases hw : pySplit text = []
  · rw [if_pos hw] at h
    have hc : chunks = [] := by simpa using h.symm
    subst hc
    refine ⟨[], ?_, by simp, ?_, by simp⟩
    · rw [hw]; rfl
    · intro _ hlen
      rw [hw] at hlen
      simp at hlen
  · rw [if_neg hw] at h
    cases hit : chunkLoop (pySplit text) cw sw ((pySplit text).length + 1) 0 with
    | none => rw [hit] at h; simp at h
    | some lc =>
      rw [hit] at h
      have h2 : (if lc = [] ∧ 10 ≤ (pySplit text).length
          then some [joinSp (pySplit text)] else some lc) = some chunks := h
      refine ⟨lc, rfl, ?_, ?_, ?_⟩
      · intro hne
        rw [if_neg (by simp [hne])] at h2
        simpa using h2.symm
      · intro hnil hlen
        rw [if_pos ⟨hnil, hlen⟩] at h2
        simpa using h2.symm
      · intro hnil hlen
        rw [if_neg (by simp [hnil]; omega)] at h2
        rw [hnil] at h2
        simpa using h2.symm

/-- Helper: `word_chunks` always terminates when the stride is positive. -/
theorem word_chunks_isSome (text : String) (cw sw : Nat) (hsw : 1 ≤ sw) :
    (word_chunks text cw sw).isSome := by
  unfold word_chunks
  by_cases hw : pySplit text = []
  · rw [if_pos hw]; rfl
  · rw [if_neg hw]
    rcases Option.isSome_iff_exists.mp
      (chunkLoop_total (pySplit text) cw sw hsw ((pySplit text).length + 1) 0
        (by omega) (by omega)) with ⟨r, hr⟩
    rw [hr]
    show (if r = [] ∧ 10 ≤ (pySplit text).length
        then some [joinSp (pySplit text)] else some r).isSome
    by_cases hc : r = [] ∧ 10 ≤ (pySplit text).length
    · rw [if_pos hc]; rfl
    · rw [if_neg hc]; rfl

/-- C10: with `stride_words ≥ 1` the chunking loop terminates (the start
index strictly increases), so `word_chunks` is total there; with
`stride_words = 0` the loop never terminates on a document whose first
window qualifies (10 words, `chunk_words = 10`), so `stride_words ≥ 1`
is exactly the totality precondition. -/
theorem word_chunks_total_iff_stride_pos :
    (∀ (text : String) (cw sw : Nat), 1 ≤ sw → (word_chunks text cw sw).isSome) ∧
    (∀ fuel : Nat, chunkLoop (pySplit "a b c d e f g h i j") 10 0 fuel 0 = none) ∧
    word_chunks "a b c d e f g h i j" 10 0 = none := by
  refine ⟨fun text cw sw hsw => word_chunks_isSome text cw sw hsw, ?_, ?_⟩
  · intro fuel
    induction fuel with
    | zero => rfl
    | succ fuel ih =>
      rw [chunkLoop_succ, if_pos (by decide), if_neg (by decide)]
      simp only [Nat.add_zero]
      rw [ih]
  · decide

theorem word_chunks_total_iff_stride_pos_witness :
    (word_chunks "x y" 60 20).isSome :=
  word_chunks_total_iff_stride_pos.1 "x y" 60 20 (by omega)

/-- C6: whenever `word_chunks` returns, every window the loop emitted had
at least `max 10 (chunk_words / 3)` words, the loop stopped exactly at
the first window below that minimum (that short window is discarded),
and if the loop emitted nothing while the document has at least 10
words, the result is exactly one chunk holding the entire word
sequence. -/
theorem word_chunks_tail_drop_and_fallback (text : String) (cw sw : Nat)
    (chunks : List String) (h : word_chunks text cw sw = some chunks) :
    ∃ lc, chunkLoop (pySplit text) cw sw ((pySplit text).length + 1) 0 = some lc ∧
      (∀ k, k < lc.length →
        max 10 (cw / 3) ≤ (((pySplit text).drop (k * sw)).take cw).length) ∧
      (lc.length * sw < (pySplit text).length →
        (((pySplit text).drop (lc.length * sw)).take cw).length < max 10 (cw / 3)) ∧
      (lc ≠ [] → chunks = lc) ∧
      (lc = [] → 10 ≤ (pySplit text).length → chunks = [joinSp (pySplit text)]) ∧
      (lc = [] → (pySplit text).length < 10 → chunks = []) := by
  obtain ⟨lc, hlc, hcl⟩ := word_chunks_eq_loop text cw sw chunks h
  obtain ⟨hchar1, hchar2⟩ := chunkLoop_char (pySplit text) cw sw _ 0 lc hlc
  refine ⟨lc, hlc, ?_, ?_, hcl.1, hcl.2.1, hcl.2.2⟩
  · intro k hk
    simpa using (hchar1 k hk).2.1
  · intro hlen
    simpa using hchar2 (by simpa using hlen)

theorem word_chunks_tail_drop_and_fallback_witness :
    ∃ lc, chunkLoop (pySplit "a b c d e f g h i j") 60 20
        ((pySplit "a b c d e f g h i j").length + 1) 0 = some lc ∧
      (∀ k, k < lc.length →
        max 10 (60 / 3) ≤ (((pySplit "a b c d e f g h i j").drop (k * 20)).take 60).length) ∧
      (lc.length * 20 < (pySplit "a b c d e f g h i j").length →
        (((pySplit "a b c d e f g h i j").drop (lc.length * 20)).take 60).length
          < max 10 (60 / 3)) ∧
      (lc ≠ [] → ["a b c d e f g h i j"] = lc) ∧
      (lc = [] → 10 ≤ (pySplit "a b c d e f g h i j").length →
        ["a b c d e f g h i j"] = [joinSp (pySplit "a b c d e f g h i j")]) ∧
      (lc = [] → (pySplit "a b c d e f g h i j").length < 10 →
        ["a b c d e f g h i j"] = ([] : List String)) :=
  word_chunks_tail_drop_and_fallback "a b c d e f g h i j" 60 20
    ["a b c d e f g h i j"] (by decide)

/-- C5 counterexample: with `stride_words = 5 ≤ chunk_words = 5`, a
12-word document goes through the short-document fallback and
`word_chunks` returns a single chunk of 12 words — more than
`chunk_words`. -/
theorem word_chunks_chunk_exceeds_chunk_words :
    word_chunks "a b c d e f g h i j k l" 5 5 = some ["a b c d e f g h i j k l"] ∧
    5 < (pySplit "a b c d e f g h i j k l").length := by
  constructor <;> decide

/-- C5 (amended): for `chunk_words ≥ 10` and `stride_words ≤ chunk_words`,
whenever `word_chunks` returns, the `k`-th chunk is exactly the window
of up to `chunk_words` words starting `k * stride_words` words into the
document, and its word count is at most `chunk_words`. -/
theorem word_chunks_window_bound (text : String) (cw sw : Nat)
    (hcw : 10 ≤ cw) (hsw : sw ≤ cw) (chunks : List String)
    (h : word_chunks text cw sw = some chunks) :
    ∀ k, k < chunks.length →
      (pySplit (chunks.getD k "")).length ≤ cw ∧
      chunks.getD k "" = joinSp (((pySplit text).drop (k * sw)).take cw) := by
  obtain ⟨lc, hlc, hne, hfb, hnil⟩ := word_chunks_eq_loop text cw sw chunks h
  obtain ⟨hchar1, hchar2⟩ := chunkLoop_char (pySplit text) cw sw _ 0 lc hlc
  have hwin_wf : ∀ j, ∀ w ∈ ((pySplit text).drop j).take cw,
      w.data ≠ [] ∧ ∀ c ∈ w.data, pyIsSpace c = false := by
    intro j w hw
    exact pySplit_wf text w
      ((List.drop_sublist j (pySplit text)).mem ((List.take_sublist cw _).mem hw))
  by_cases hlcnil : lc = []
  · subst hlcnil
    by_cases hlen : 10 ≤ (pySplit text).length
    · have hch : chunks = [joinSp (pySplit text)] := hfb rfl hlen
      subst hch
      intro k hk
      have hk0 : k = 0 := by simpa using hk
      subst hk0
      have hshort2 : min cw (pySplit text).length < max 10 (cw / 3) := by
        have := hchar2 (by simpa using (show 0 < (pySplit text).length by omega))
        simpa [List.length_take] using this
      have hTcw : max 10 (cw / 3) ≤ cw := max_le hcw (Nat.div_le_self cw 3)
      have hlencw : (pySplit text).length < cw := by
        by_contra hge
        push_neg at hge
        rw [min_eq_left hge] at hshort2
        omega
      have htake : (pySplit text).take cw = pySplit text :=
        List.take_of_length_le (Nat.le_of_lt hlencw)
      simp only [List.getD_cons_zero, Nat.zero_mul, List.drop_zero, htake]
      refine ⟨?_, by trivial⟩
      rw [pySplit_joinSp (pySplit text) (fun w hw => pySplit_wf text w hw)]
      omega
    · have hch : chunks = [] := hnil rfl (by omega)
      subst hch
      intro k hk
      simp at hk
  · have hch : chunks = lc := hne hlcnil
    subst hch
    intro k hk
    obtain ⟨hget, hT, _⟩ := hchar1 k hk
    simp only [Nat.zero_add] at hget hT
    have hgetD : chunks.getD k "" = chunks.get ⟨k, hk⟩ := by
      rw [List.getD_eq_getElem?_getD, List.getElem?_eq_getElem hk]
      rfl
    rw [hgetD, hget]
    constructor
    · rw [pySplit_joinSp _ (hwin_wf (k * sw))]
      exact List.length_take_le cw _
    · rfl

theorem word_chunks_window_bound_witness :
    (pySplit ((["a b c d e f g h i j"] : List String).getD 0 "")).length ≤ 60 ∧
    (["a b c d e f g h i j"] : List String).getD 0 ""
      = joinSp (((pySplit "a b c d e f g h i j").drop (0 * 20)).take 60) :=
  word_chunks_window_bound "a b c d e f g h i j" 60 20 (by omega) (by omega)
    ["a b c d e f g h i j"] (by decide) 0 (by decide)

/-! ### Normalizer claims -/

/-- C8 counterexample: applied to `None`, `normalize_text` evaluates
`s.lower()` on `None` and raises `AttributeError`; it does not return
the empty string. -/
theorem normalize_none_raises :
    normalize_text_py none = Except.error "AttributeError" ∧
    normalize_text_py none ≠ Except.ok "" := by
  exact ⟨rfl, by simp [normalize_text_py]⟩

/-- C8 (amended): on string input the normalizer has no error conditions
and maps the empty string to the empty string; on `None` it raises
`AttributeError` instead of returning the empty string. -/
theorem normalize_empty_and_none :
    normalize_text "" = "" ∧ normalize_text_py none = Except.error "AttributeError" :=
  ⟨rfl, rfl⟩

/-! ### compute_matches: branch structure -/

/-- Unfolding of `compute_matches` into its branch structure. -/
theorem compute_matches_def (σ : Nat → Nat → ℚ) (qt : String)
    (corpus : List (String × String)) (cw sw k : Nat) (t : ℚ) :
    compute_matches σ qt corpus cw sw k t
      = (word_chunks (normalize_text qt) cw sw).bind (fun q_chunks =>
          if q_chunks = [] then some (Except.ok (0, []))
          else (docChunkMapOf corpus cw sw).bind (fun dcm =>
            if dcm = [] then some (Except.ok (0, []))
            else if vocabularyOf (q_chunks ++ dcm.map Prod.snd) = [] then
              some (Except.error "ValueError: empty vocabulary")
            else some (Except.ok (globalSimOf σ q_chunks.length dcm.length,
              sortMatchesDesc ((uniqDict (candidateMatches σ q_chunks dcm k t)).map
                Prod.snd))))) := rfl

/-- C1: at the failing input — ten single-letter words as both query and
sole corpus document — both chunk lists are non-empty (the whole-document
fallback fires), but the vectorizer tokenizer keeps only words of two or
more characters, so the fitted vocabulary is empty and
`fit_transform` raises `ValueError` instead of returning `(0.0, [])`;
this holds for every similarity kernel `σ`. -/
theorem compute_matches_empty_vocabulary_raises (σ : Nat → Nat → ℚ) :
    compute_matches σ "a b c d e f g h i j" [("doc", "a b c d e f g h i j")]
        60 20 1 (3 / 4) = some (Except.error "ValueError: empty vocabulary") ∧
    word_chunks (normalize_text "a b c d e f g h i j") 60 20
        = some ["a b c d e f g h i j"] := by
  constructor
  · rfl
  · decide

/-- C7: `compute_matches` returns exactly `(0.0, [])`, without raising,
whenever the query yields no chunks or the corpus yields no chunks; in
particular for the empty corpus mapping at the default parameters. -/
theorem compute_matches_zero_on_empty :
    (∀ (σ : Nat → Nat → ℚ) (qt : String) (corpus : List (String × String))
        (cw sw k : Nat) (t : ℚ) (qcs : List String),
      word_chunks (normalize_text qt) cw sw = some qcs →
      (qcs = [] ∨ docChunkMapOf corpus cw sw = some []) →
      compute_matches σ qt corpus cw sw k t = some (Except.ok (0, []))) ∧
    (∀ (σ : Nat → Nat → ℚ) (qt : String),
      compute_matches σ qt [] 60 20 1 (3 / 4) = some (Except.ok (0, []))) := by
  constructor
  · intro σ qt corpus cw sw k t qcs hq hdisj
    rw [compute_matches_def, hq, Option.some_bind]
    by_cases hqe : qcs = []
    · rw [if_pos hqe]
    · rw [if_neg hqe]
      rcases hdisj with h | h
      · exact absurd h hqe
      · rw [h, Option.some_bind, if_pos rfl]
  · intro σ qt
    rcases Option.isSome_iff_exists.mp
      (word_chunks_isSome (normalize_text qt) 60 20 (by omega)) with ⟨qcs, hq⟩
    rw [compute_matches_def, hq, Option.some_bind]
    by_cases hqe : qcs = []
    · rw [if_pos hqe]
    · rw [if_neg hqe]
      rw [show docChunkMapOf [] 60 20 = some [] from rfl, Option.some_bind, if_pos rfl]

theorem compute_matches_zero_on_empty_witness :
    compute_matches (fun _ _ => 0) "aa bb" [("d", "x")] 60 20 1 (3 / 4)
      = some (Except.ok (0, [])) :=
  compute_matches_zero_on_empty.1 (fun _ _ => 0) "aa bb" [("d", "x")]
    60 20 1 (3 / 4) [] (by decide) (Or.inl rfl)

/-- C2: the global similarity component of the result of
`compute_matches` is the same for every `threshold` and
`top_k_per_chunk`; and on the main branch the result is exactly
`globalSimOf σ nq nd` — the arithmetic mean over the `nq` query-chunk
rows of the per-row maximum score over the `nd` corpus chunks — paired
with the filtered match list, so the aggregate ignores the filters. -/
theorem global_sim_mean_of_row_maxima_and_filter_invariant :
    (∀ (σ : Nat → Nat → ℚ) (qt : String) (corpus : List (String × String))
        (cw sw k₁ k₂ : Nat) (t₁ t₂ : ℚ),
      Option.map (Except.map Prod.fst) (compute_matches σ qt corpus cw sw k₁ t₁)
        = Option.map (Except.map Prod.fst) (compute_matches σ qt corpus cw sw k₂ t₂)) ∧
    (∀ (σ : Nat → Nat → ℚ) (qt : String) (corpus : List (String × String))
        (cw sw k : Nat) (t : ℚ) (qcs : List String) (dcm : List (String × String)),
      word_chunks (normalize_text qt) cw sw = some qcs → qcs ≠ [] →
      docChunkMapOf corpus cw sw = some dcm → dcm ≠ [] →
      vocabularyOf (qcs ++ dcm.map Prod.snd) ≠ [] →
      compute_matches σ qt corpus cw sw k t
        = some (Except.ok (globalSimOf σ qcs.length dcm.length,
            sortMatchesDesc ((uniqDict (candidateMatches σ qcs dcm k t)).map
              Prod.snd)))) := by
  constructor
  · intro σ qt corpus cw sw k₁ k₂ t₁ t₂
    rw [compute_matches_def, compute_matches_def]
    cases hq : word_chunks (normalize_text qt) cw sw with
    | none => rfl
    | some qcs =>
      rw [Option.some_bind, Option.some_bind]
      by_cases hqe : qcs = []
      · rw [if_pos hqe, if_pos hqe]
      · rw [if_neg hqe, if_neg hqe]
        cases hd : docChunkMapOf corpus cw sw with
        | none => rfl
        | some dcm =>
          rw [Option.some_bind, Option.some_bind]
          by_cases hde : dcm = []
          · rw [if_pos hde, if_pos hde]
          · rw [if_neg hde, if_neg hde]
            by_cases hv : vocabularyOf (qcs ++ dcm.map Prod.snd) = []
            · rw [if_pos hv, if_pos hv]
            · rw [if_neg hv, if_neg hv]
              rfl
  · intro σ qt corpus cw sw k t qcs dcm hq hqe hd hde hv
    rw [compute_matches_def, hq, Option.some_bind, if_neg hqe, hd,
      Option.some_bind, if_neg hde, if_neg hv]

theorem global_sim_mean_of_row_maxima_and_filter_invariant_witness :
    compute_matches (fun _ _ => 1 / 2) "aa bb cc dd ee ff gg hh ii jj"
        [("doc", "aa bb cc dd ee ff gg hh ii jj")] 60 20 1 (3 / 4)
      = some (Except.ok (globalSimOf (fun _ _ => 1 / 2) 1 1,
          sortMatchesDesc ((uniqDict (candidateMatches (fun _ _ => 1 / 2)
            ["aa bb cc dd ee ff gg hh ii jj"]
            [("doc", "aa bb cc dd ee ff gg hh ii jj")] 1 (3 / 4))).map Prod.snd))) :=
  global_sim_mean_of_row_maxima_and_filter_invariant.2 (fun _ _ => 1 / 2)
    "aa bb cc dd ee ff gg hh ii jj" [("doc", "aa bb cc dd ee ff gg hh ii jj")]
    60 20 1 (3 / 4) ["aa bb cc dd ee ff gg hh ii jj"]
    [("doc", "aa bb cc dd ee ff gg hh ii jj")]
    (by decide) (by decide) (by decide) (by decide) (by decide)

/-! ### The dedup dict: lookup semantics -/

theorem keptFor_cons_eq (key : String × String) (c : Match) (l : List Match)
    (h : keyOf c = key) :
    keptFor key (c :: l) = combineBest (some c) (keptFor key l) := by
  cases hx : keptFor key l with
  | none => simp [keptFor, h, hx, combineBest]
  | some b => simp [keptFor, h, hx, combineBest]

theorem keptFor_cons_ne (key : String × String) (c : Match) (l : List Match)
    (h : ¬ keyOf c = key) :
    keptFor key (c :: l) = keptFor key l := by
  simp [keptFor, h]

theorem keptFor_none (key : String × String) :
    ∀ l : List Match, keptFor key l = none → ∀ c ∈ l, keyOf c ≠ key := by
  intro l
  induction l with
  | nil => intro _ c hc; simp at hc
  | cons a l ih =>
    intro h c hc
    by_cases ha : keyOf a = key
    · rw [keptFor_cons_eq key a l ha] at h
      cases hx : keptFor key l with
      | none => rw [hx] at h; simp [combineBest] at h
      | some d =>
        rw [hx] at h
        simp only [combineBest] at h
        split_ifs at h <;> simp at h
    · rw [keptFor_cons_ne key a l ha] at h
      rcases List.mem_cons.mp hc with rfl | hc
      · exact ha
      · exact ih h c hc

theorem keptFor_mem (key : String × String) :
    ∀ (l : List Match) (b : Match), keptFor key l = some b →
      b ∈ l ∧ keyOf b = key ∧ ∀ c ∈ l, keyOf c = key → c.score ≤ b.score := by
  intro l
  induction l with
  | nil => intro b h; simp [keptFor] at h
  | cons a l ih =>
    intro b h
    by_cases ha : keyOf a = key
    · rw [keptFor_cons_eq key a l ha] at h
      cases hx : keptFor key l with
      | none =>
        rw [hx] at h
        simp [combineBest] at h
        subst h
        refine ⟨by simp, ha, ?_⟩
        intro c hc hck
        rcases List.mem_cons.mp hc with rfl | hc
        · exact le_refl _
        · exact absurd hck (keptFor_none key l hx c hc)
      | some d =>
        rw [hx] at h
        obtain ⟨hdl, hdk, hdmax⟩ := ih d hx
        simp only [combineBest] at h
        split_ifs at h with hlt
        · simp at h
          subst h
          refine ⟨List.mem_cons_of_mem a hdl, hdk, ?_⟩
          intro c hc hck
          rcases List.mem_cons.mp hc with rfl | hc
          · exact le_of_lt hlt
          · exact hdmax c hc hck
        · simp at h
          subst h
          refine ⟨by simp, ha, ?_⟩
          intro c hc hck
          rcases List.mem_cons.mp hc with rfl | hc
          · exact le_refl _
          · exact le_trans (hdmax c hc hck) (not_lt.mp hlt)
    · rw [keptFor_cons_ne key a l ha] at h
      obtain ⟨hbl, hbk, hbmax⟩ := ih b h
      refine ⟨List.mem_cons_of_mem a hbl, hbk, ?_⟩
      intro c hc hck
      rcases List.mem_cons.mp hc with rfl | hc
      · exact absurd hck ha
      · exact hbmax c hc hck

theorem combineBest_assoc (x y z : Option Match) :
    combineBest (combineBest x y) z = combineBest x (combineBest y z) := by
  cases x with
  | none => rfl
  | some b =>
    cases y with
    | none => cases z <;> rfl
    | some c =>
      cases z with
      | none => simp only [combineBest]; split_ifs <;> rfl
      | some d =>
        simp only [combineBest]
        split_ifs <;> first | rfl | (exfalso; linarith) | (simp only [combineBest]; split_ifs <;> first | rfl | (exfalso; linarith))

theorem combineBest_none_right (x : Option Match) : combineBest x none = x := by
  cases x <;> rfl

theorem find?_append_single (l : List ((String × String) × Match))
    (k0 : String × String) (m : Match) (key : String × String) :
    (l ++ [(k0, m)]).find? (fun p => decide (p.1 = key))
      = match l.find? (fun p => decide (p.1 = key)) with
        | some p => some p
        | none => if k0 = key then some (k0, m) else none := by
  induction l with
  | nil =>
    by_cases hk : k0 = key
    · rw [List.nil_append, List.find?_cons_of_pos _ (by simp [hk])]
      simp [hk]
    · rw [List.nil_append, List.find?_cons_of_neg _ (by simp [hk])]
      simp [hk]
  | cons q l ih =>
    by_cases hq : q.1 = key
    · rw [List.cons_append, List.find?_cons_of_pos _ (by simp [hq]),
        List.find?_cons_of_pos _ (by simp [hq])]
    · rw [List.cons_append, List.find?_cons_of_neg _ (by simp [hq]),
        List.find?_cons_of_neg _ (by simp [hq])]
      exact ih

theorem find?_replace (l : List ((String × String) × Match))
    (k0 : String × String) (m : Match) (key : String × String) :
    (l.map (fun q => if q.1 = k0 then (k0, m) else q)).find?
        (fun p => decide (p.1 = key))
      = if k0 = key then
          (l.find? (fun p => decide (p.1 = key))).map (fun _ => (k0, m))
        else l.find? (fun p => decide (p.1 = key)) := by
  induction l with
  | nil => simp only [List.map_nil, List.find?_nil, Option.map_none]; split_ifs <;> rfl
  | cons q l ih =>
    by_cases hq : q.1 = key
    · by_cases hk : k0 = key
      · rw [List.map_cons, if_pos (by rw [hq, hk]),
          List.find?_cons_of_pos _ (by simp [hk]),
          List.find?_cons_of_pos _ (by simp [hq])]
        simp [hk]
      · have hqk : ¬ q.1 = k0 := by rw [hq]; exact fun hc => hk hc.symm
        rw [List.map_cons, if_neg hqk,
          List.find?_cons_of_pos _ (by simp [hq]),
          List.find?_cons_of_pos _ (by simp [hq])]
        simp [hk]
    · by_cases hqk : q.1 = k0
      · have hk : ¬ k0 = key := fun hc => hq (hqk.trans hc)
        rw [List.map_cons, if_pos hqk,
          List.find?_cons_of_neg _ (by simp [hk]),
          List.find?_cons_of_neg _ (by simp [hq])]
        rw [ih, if_neg hk]
      · rw [List.map_cons, if_neg hqk,
          List.find?_cons_of_neg _ (by simp [hq]),
          List.find?_cons_of_neg _ (by simp [hq])]
        exact ih

theorem lookupKey_uniqStep (key : String × String)
    (acc : List ((String × String) × Match)) (m : Match) :
    lookupKey key (uniqStep acc m)
      = combineBest (lookupKey key acc) (if keyOf m = key then some m else none) := by
  cases hfind : acc.find? (fun p => decide (p.1 = keyOf m)) with
  | none =>
    have hstep : uniqStep acc m = acc ++ [(keyOf m, m)] := by
      unfold uniqStep; rw [hfind]
    rw [hstep]
    unfold lookupKey
    rw [find?_append_single]
    by_cases hk : keyOf m = key
    · rw [← hk, hfind]
      simp [combineBest]
    · cases hf : acc.find? (fun p => decide (p.1 = key)) with
      | none => simp [hk, combineBest]
      | some p => simp [hk, combineBest]
  | some p =>
    have hp1 : p.1 = keyOf m := by
      have := List.find?_some hfind
      simpa using this
    by_cases hsc : p.2.score < m.score
    · have hstep : uniqStep acc m
          = acc.map (fun q => if q.1 = keyOf m then (keyOf m, m) else q) := by
        unfold uniqStep; rw [hfind]; exact if_pos hsc
      rw [hstep]
      unfold lookupKey
      rw [find?_replace]
      by_cases hk : keyOf m = key
      · rw [if_pos hk, ← hk, hfind]
        simp [combineBest, hsc]
      · rw [if_neg hk]
        simp [hk, combineBest_none_right]
    · have hstep : uniqStep acc m = acc := by
        unfold uniqStep; rw [hfind]; exact if_neg hsc
      rw [hstep]
      by_cases hk : keyOf m = key
      · rw [if_pos hk]
        unfold lookupKey
        rw [← hk, hfind]
        simp [combineBest, hsc]
      · rw [if_neg hk, combineBest_none_right]

theorem lookupKey_uniqFold (key : String × String) :
    ∀ (l : List Match) (acc : List ((String × String) × Match)),
      lookupKey key (l.foldl uniqStep acc)
        = combineBest (lookupKey key acc) (keptFor key l) := by
  intro l
  induction l with
  | nil =>
    intro acc
    show lookupKey key acc = combineBest (lookupKey key acc) none
    rw [combineBest_none_right]
  | cons c l ih =>
    intro acc
    rw [List.foldl_cons, ih (uniqStep acc c), lookupKey_uniqStep]
    by_cases hc : keyOf c = key
    · rw [if_pos hc, keptFor_cons_eq key c l hc, ← combineBest_assoc]
    · rw [if_neg hc, keptFor_cons_ne key c l hc, combineBest_none_right]

theorem lookupKey_uniqDict (key : String × String) (ms : List Match) :
    lookupKey key (uniqDict ms) = keptFor key ms := by
  unfold uniqDict
  rw [lookupKey_uniqFold]
  rfl

theorem uniqStep_wellKeyed (acc : List ((String × String) × Match)) (m : Match)
    (h : ∀ p ∈ acc, keyOf p.2 = p.1) :
    ∀ p ∈ uniqStep acc m, keyOf p.2 = p.1 := by
  cases hfind : acc.find? (fun p => decide (p.1 = keyOf m)) with
  | none =>
    have hstep : uniqStep acc m = acc ++ [(keyOf m, m)] := by
      unfold uniqStep; rw [hfind]
    rw [hstep]
    intro p hp
    rcases List.mem_append.mp hp with hp | hp
    · exact h p hp
    · rcases List.mem_singleton.mp hp with rfl
      rfl
  | some q =>
    by_cases hsc : q.2.score < m.score
    · have hstep : uniqStep acc m
          = acc.map (fun q => if q.1 = keyOf m then (keyOf m, m) else q) := by
        unfold uniqStep; rw [hfind]; exact if_pos hsc
      rw [hstep]
      intro p hp
      rcases List.mem_map.mp hp with ⟨p0, hp0, rfl⟩
      by_cases hk : p0.1 = keyOf m
      · rw [if_pos hk]
      · rw [if_neg hk]
        exact h p0 hp0
    · have hstep : uniqStep acc m = acc := by
        unfold uniqStep; rw [hfind]; exact if_neg hsc
      rw [hstep]
      exact h

theorem uniqDict_wellKeyed (ms : List Match) :
    ∀ p ∈ uniqDict ms, keyOf p.2 = p.1 := by
  unfold uniqDict
  suffices hgen : ∀ (l : List Match) (acc : List ((String × String) × Match)),
      (∀ p ∈ acc, keyOf p.2 = p.1) → ∀ p ∈ l.foldl uniqStep acc, keyOf p.2 = p.1 by
    exact hgen ms [] (by simp)
  intro l
  induction l with
  | nil => intro acc hacc; exact hacc
  | cons c l ih =>
    intro acc hacc
    rw [List.foldl_cons]
    exact ih (uniqStep acc c) (uniqStep_wellKeyed acc c hacc)

theorem uniqStep_keys_cases (acc : List ((String × String) × Match)) (m : Match) :
    (uniqStep acc m).map Prod.fst = acc.map Prod.fst ∨
    ((uniqStep acc m).map Prod.fst = acc.map Prod.fst ++ [keyOf m] ∧
      keyOf m ∉ acc.map Prod.fst) := by
  cases hfind : acc.find? (fun p => decide (p.1 = keyOf m)) with
  | none =>
    have hstep : uniqStep acc m = acc ++ [(keyOf m, m)] := by
      unfold uniqStep; rw [hfind]
    rw [hstep]
    right
    constructor
    · simp
    · intro hmem
      rcases List.mem_map.mp hmem with ⟨q, hq, hq1⟩
      have := List.find?_eq_none.mp hfind q hq
      simp [hq1] at this
  | some p =>
    left
    by_cases hsc : p.2.score < m.score
    · have hstep : uniqStep acc m
          = acc.map (fun q => if q.1 = keyOf m then (keyOf m, m) else q) := by
        unfold uniqStep; rw [hfind]; exact if_pos hsc
      rw [hstep, List.map_map]
      refine List.map_congr_left ?_
      intro q _
      by_cases hk : q.1 = keyOf m
      · simp [hk]
      · simp [hk]
    · have hstep : uniqStep acc m = acc := by
        unfold uniqStep; rw [hfind]; exact if_neg hsc
      rw [hstep]

theorem uniqDict_keys_nodup (ms : List Match) :
    ((uniqDict ms).map Prod.fst).Nodup := by
  unfold uniqDict
  suffices hgen : ∀ (l : List Match) (acc : List ((String × String) × Match)),
      (acc.map Prod.fst).Nodup → ((l.foldl uniqStep acc).map Prod.fst).Nodup by
    exact hgen ms [] (by simp)
  intro l
  induction l with
  | nil => intro acc hacc; exact hacc
  | cons c l ih =>
    intro acc hacc
    rw [List.foldl_cons]
    refine ih (uniqStep acc c) ?_
    rcases uniqStep_keys_cases acc c with heq | ⟨heq, hnot⟩
    · rw [heq]; exact hacc
    · rw [heq]
      rw [List.nodup_append]
      exact ⟨hacc, List.nodup_singleton _, by
        intro a ha hb
        rcases List.mem_singleton.mp hb with rfl
        exact hnot ha⟩

theorem find?_of_mem_nodup (acc : List ((String × String) × Match))
    (hn : (acc.map Prod.fst).Nodup) (p : (String × String) × Match) (hp : p ∈ acc) :
    acc.find? (fun q => decide (q.1 = p.1)) = some p := by
  induction acc with
  | nil => simp at hp
  | cons q0 acc ih =>
    rw [List.map_cons, List.nodup_cons] at hn
    rcases List.mem_cons.mp hp with rfl | hp2
    · rw [List.find?_cons_of_pos _ (by simp)]
    · have hq0 : ¬ q0.1 = p.1 := by
        intro hc
        exact hn.1 (hc ▸ List.mem_map_of_mem Prod.fst hp2)
      rw [List.find?_cons_of_neg _ (by simp [hq0])]
      exact ih hn.2 hp2

theorem mem_uniqDict_values (ms : List Match) (m : Match) :
    m ∈ (uniqDict ms).map Prod.snd ↔ keptFor (keyOf m) ms = some m := by
  constructor
  · intro hm
    rcases List.mem_map.mp hm with ⟨p, hp, rfl⟩
    have hwk : keyOf p.2 = p.1 := uniqDict_wellKeyed ms p hp
    have hfind := find?_of_mem_nodup (uniqDict ms) (uniqDict_keys_nodup ms) p hp
    have hlk : lookupKey p.1 (uniqDict ms) = some p.2 := by
      unfold lookupKey
      rw [hfind]
      rfl
    rw [← lookupKey_uniqDict, hwk]
    exact hlk
  · intro hk
    have hlk : lookupKey (keyOf m) (uniqDict ms) = some m := by
      rw [lookupKey_uniqDict]
      exact hk
    unfold lookupKey at hlk
    cases hf : (uniqDict ms).find? (fun p => decide (p.1 = keyOf m)) with
    | none => rw [hf] at hlk; simp at hlk
    | some p =>
      rw [hf] at hlk
      simp at hlk
      have hpmem := List.mem_of_find?_eq_some hf
      exact List.mem_map.mpr ⟨p, hpmem, hlk⟩

/-- C3: in the match list returned by `compute_matches`, no two matches
share a `(source_doc, source_chunk)` key, and each returned match is a
candidate (produced by the top-k and threshold filters) whose score is
maximal among all candidates with its key. -/
theorem matches_unique_per_key_and_max_score
    (σ : Nat → Nat → ℚ) (qt : String) (corpus : List (String × String))
    (cw sw k : Nat) (t g : ℚ) (ms : List Match)
    (h : compute_matches σ qt corpus cw sw k t = some (Except.ok (g, ms))) :
    List.Pairwise (fun a b => keyOf a ≠ keyOf b) ms ∧
    ∀ m ∈ ms, ∃ (qcs : List String) (dcm : List (String × String)),
      word_chunks (normalize_text qt) cw sw = some qcs ∧
      docChunkMapOf corpus cw sw = some dcm ∧
      m ∈ candidateMatches σ qcs dcm k t ∧
      ∀ c ∈ candidateMatches σ qcs dcm k t, keyOf c = keyOf m → c.score ≤ m.score := by
  rw [compute_matches_def] at h
  cases hq : word_chunks (normalize_text qt) cw sw with
  | none => rw [hq] at h; simp at h
  | some qcs =>
    rw [hq, Option.some_bind] at h
    by_cases hqe : qcs = []
    · rw [if_pos hqe] at h
      simp only [Option.some_inj, Except.ok.injEq, Prod.mk.injEq] at h
      obtain ⟨-, hms⟩ := h
      subst hms
      exact ⟨by simp, by simp⟩
    · rw [if_neg hqe] at h
      cases hd : docChunkMapOf corpus cw sw with
      | none => rw [hd] at h; simp at h
      | some dcm =>
        rw [hd, Option.some_bind] at h
        by_cases hde : dcm = []
        · rw [if_pos hde] at h
          simp only [Option.some_inj, Except.ok.injEq, Prod.mk.injEq] at h
          obtain ⟨-, hms⟩ := h
          subst hms
          exact ⟨by simp, by simp⟩
        · rw [if_neg hde] at h
          by_cases hv : vocabularyOf (qcs ++ dcm.map Prod.snd) = []
          · rw [if_pos hv] at h
            simp at h
          · rw [if_neg hv] at h
            simp only [Option.some_inj, Except.ok.injEq, Prod.mk.injEq] at h
            obtain ⟨-, hms⟩ := h
            subst hms
            set cands := candidateMatches σ qcs dcm k t with hcands
            have hperm : List.Perm (sortMatchesDesc ((uniqDict cands).map Prod.snd))
                ((uniqDict cands).map Prod.snd) :=
              List.perm_insertionSort _ _
            have hkeys : (uniqDict cands).map Prod.fst
                = ((uniqDict cands).map Prod.snd).map keyOf := by
              rw [List.map_map]
              exact (List.map_congr_left
                (fun p hp => (uniqDict_wellKeyed cands p hp).symm))
            have hnd : (((uniqDict cands).map Prod.snd).map keyOf).Nodup := by
              rw [← hkeys]
              exact uniqDict_keys_nodup cands
            have hpw : List.Pairwise (fun a b => keyOf a ≠ keyOf b)
                ((uniqDict cands).map Prod.snd) :=
              List.pairwise_map.mp hnd
            constructor
            · exact (hperm.pairwise_iff (fun {a b} hab => hab.symm)).mpr hpw
            · intro m hm
              have hmv : m ∈ (uniqDict cands).map Prod.snd := hperm.mem_iff.mp hm
              have hkept := (mem_uniqDict_values cands m).mp hmv
              obtain ⟨hmem, -, hmax⟩ := keptFor_mem (keyOf m) cands m hkept
              exact ⟨qcs, dcm, rfl, rfl, hmem, hmax⟩

theorem matches_unique_per_key_and_max_score_witness :
    List.Pairwise (fun a b => keyOf a ≠ keyOf b)
      (sortMatchesDesc ((uniqDict (candidateMatches (fun _ _ => 1)
        ["aa bb cc dd ee ff gg hh ii jj"] [("doc", "aa bb cc dd ee ff gg hh ii jj")]
        1 (3 / 4))).map Prod.snd)) ∧
    ∀ m ∈ sortMatchesDesc ((uniqDict (candidateMatches (fun _ _ => 1)
        ["aa bb cc dd ee ff gg hh ii jj"] [("doc", "aa bb cc dd ee ff gg hh ii jj")]
        1 (3 / 4))).map Prod.snd),
      ∃ (qcs : List String) (dcm : List (String × String)),
        word_chunks (normalize_text "aa bb cc dd ee ff gg hh ii jj") 60 20 = some qcs ∧
        docChunkMapOf [("doc", "aa bb cc dd ee ff gg hh ii jj")] 60 20 = some dcm ∧
        m ∈ candidateMatches (fun _ _ => 1) qcs dcm 1 (3 / 4) ∧
        ∀ c ∈ candidateMatches (fun _ _ => 1) qcs dcm 1 (3 / 4),
          keyOf c = keyOf m → c.score ≤ m.score :=
  matches_unique_per_key_and_max_score (fun _ _ => 1)
    "aa bb cc dd ee ff gg hh ii jj" [("doc", "aa bb cc dd ee ff gg hh ii jj")]
    60 20 1 (3 / 4) (globalSimOf (fun _ _ => 1) 1 1)
    (sortMatchesDesc ((uniqDict (candidateMatches (fun _ _ => 1)
      ["aa bb cc dd ee ff gg hh ii jj"] [("doc", "aa bb cc dd ee ff gg hh ii jj")]
      1 (3 / 4))).map Prod.snd))
    (by
      rw [compute_matches_def,
        show word_chunks (normalize_text "aa bb cc dd ee ff gg hh ii jj") 60 20
          = some ["aa bb cc dd ee ff gg hh ii jj"] from by decide,
        Option.some_bind,
        if_neg (show ¬ (["aa bb cc dd ee ff gg hh ii jj"] = ([] : List String))
          from by decide),
        show docChunkMapOf [("doc", "aa bb cc dd ee ff gg hh ii jj")] 60 20
          = some [("doc", "aa bb cc dd ee ff gg hh ii jj")] from by decide,
        Option.some_bind,
        if_neg (show ¬ ([("doc", "aa bb cc dd ee ff gg hh ii jj")]
          = ([] : List (String × String))) from by decide),
        if_neg (show ¬ (vocabularyOf (["aa bb cc dd ee ff gg hh ii jj"]
          ++ ([("doc", "aa bb cc dd ee ff gg hh ii jj")].map Prod.snd)) = [])
          from by decide)]
      rfl)

theorem filter_flatMap (l : List Nat) (f : Nat → List Match) (p : Match → Bool) :
    (l.flatMap f).filter p = l.flatMap (fun b => (f b).filter p) := by
  induction l with
  | nil => rfl
  | cons b l ih => simp [List.flatMap_cons, List.filter_append, ih]

theorem filterMap_filter_threshold (s : Nat → ℚ) (f : Nat → Match)
    (hf : ∀ j, (f j).score = s j) (t₁ t₂ : ℚ) (h : t₁ ≤ t₂) :
    ∀ l : List Nat,
      l.filterMap (fun j => if t₂ ≤ s j then some (f j) else none)
        = (l.filterMap (fun j => if t₁ ≤ s j then some (f j) else none)).filter
            (fun c => decide (t₂ ≤ c.score)) := by
  intro l
  induction l with
  | nil => rfl
  | cons j l ih =>
    by_cases h2 : t₂ ≤ s j
    · have h1 : t₁ ≤ s j := le_trans h h2
      simp only [List.filterMap_cons, if_pos h2, if_pos h1, List.filter_cons]
      rw [ih]
      simp [hf, h2]
    · by_cases h1 : t₁ ≤ s j
      · simp only [List.filterMap_cons, if_neg h2, if_pos h1, List.filter_cons]
        rw [ih]
        simp [hf, h2]
      · simp only [List.filterMap_cons, if_neg h2, if_neg h1]
        exact ih

/-- The candidates at a higher threshold are exactly the candidates at a
lower threshold filtered by the higher threshold (the top-k column lists
do not depend on the threshold). -/
theorem candidateMatches_filter (σ : Nat → Nat → ℚ) (q_chunks : List String)
    (dcm : List (String × String)) (k : Nat) (t₁ t₂ : ℚ) (h : t₁ ≤ t₂) :
    candidateMatches σ q_chunks dcm k t₂
      = (candidateMatches σ q_chunks dcm k t₁).filter
          (fun c => decide (t₂ ≤ c.score)) := by
  unfold candidateMatches
  rw [filter_flatMap]
  refine congrArg (List.flatMap (List.range q_chunks.length)) (funext fun i => ?_)
  exact filterMap_filter_threshold (σ i)
    (fun j => { query_chunk := q_chunks.getD i ""
                source_doc := (dcm.getD j ("", "")).1
                source_chunk := (dcm.getD j ("", "")).2
                score := σ i j })
    (fun j => rfl) t₁ t₂ h ((argsortDesc (σ i) dcm.length).take k)

/-- What the dedup keeps at a higher threshold is kept unchanged at a
lower one: filtering away only candidates below `t₂` cannot change the
first maximal-score candidate of a key that still has candidates. -/
theorem keptFor_filter (key : String × String) (t₂ : ℚ) :
    ∀ l : List Match,
      (∀ c, keptFor key (l.filter (fun x => decide (t₂ ≤ x.score))) = some c →
        keptFor key l = some c) ∧
      (keptFor key (l.filter (fun x => decide (t₂ ≤ x.score))) = none →
        ∀ b, keptFor key l = some b → ¬ t₂ ≤ b.score) := by
  intro l
  induction l with
  | nil =>
    refine ⟨fun c hc => by simp [keptFor] at hc, fun _ b hb => by simp [keptFor] at hb⟩
  | cons a l ih =>
    obtain ⟨ih1, ih2⟩ := ih
    by_cases ha : keyOf a = key
    · by_cases hpa : t₂ ≤ a.score
      · have hfc : (a :: l).filter (fun x => decide (t₂ ≤ x.score))
            = a :: l.filter (fun x => decide (t₂ ≤ x.score)) := by simp [hpa]
        constructor
        · intro c hc
          rw [hfc, keptFor_cons_eq key a _ ha] at hc
          rw [keptFor_cons_eq key a l ha]
          cases hX : keptFor key (l.filter (fun x => decide (t₂ ≤ x.score))) with
          | none =>
            rw [hX] at hc
            simp only [combineBest] at hc
            cases hY : keptFor key l with
            | none => exact hc
            | some b =>
              have hb := ih2 hX b hY
              have hba : b.score < a.score := lt_of_lt_of_le (not_le.mp hb) hpa
              simp only [combineBest, if_neg (lt_asymm hba)]
              exact hc
          | some cX =>
            rw [hX] at hc
            rw [ih1 cX hX]
            exact hc
        · intro hnone b hb
          rw [hfc, keptFor_cons_eq key a _ ha] at hnone
          cases hX : keptFor key (l.filter (fun x => decide (t₂ ≤ x.score))) with
          | none => rw [hX] at hnone; simp [combineBest] at hnone
          | some cX =>
            rw [hX] at hnone
            simp only [combineBest] at hnone
            split_ifs at hnone <;> simp at hnone
      · have hfc : (a :: l).filter (fun x => decide (t₂ ≤ x.score))
            = l.filter (fun x => decide (t₂ ≤ x.score)) := by simp [hpa]
        constructor
        · intro c hc
          rw [hfc] at hc
          have hY := ih1 c hc
          rw [keptFor_cons_eq key a l ha, hY]
          have hcs : t₂ ≤ c.score := by
            obtain ⟨hmem, -, -⟩ := keptFor_mem key _ c hc
            simpa using List.of_mem_filter hmem
          have hac : a.score < c.score := lt_of_lt_of_le (not_le.mp hpa) hcs
          simp [combineBest, hac]
        · intro hnone b hb
          rw [hfc] at hnone
          rw [keptFor_cons_eq key a l ha] at hb
          cases hY : keptFor key l with
          | none =>
            rw [hY] at hb
            simp only [combineBest, Option.some_inj] at hb
            rw [← hb]
            exact hpa
          | some d =>
            rw [hY] at hb
            have hd := ih2 hnone d hY
            simp only [combineBest] at hb
            split_ifs at hb with hlt
            · simp only [Option.some_inj] at hb
              rw [← hb]
              exact hd
            · simp only [Option.some_inj] at hb
              rw [← hb]
              exact hpa
    · have hskip : keptFor key ((a :: l).filter (fun x => decide (t₂ ≤ x.score)))
          = keptFor key (l.filter (fun x => decide (t₂ ≤ x.score))) := by
        by_cases hpa : t₂ ≤ a.score
        · rw [show (a :: l).filter (fun x => decide (t₂ ≤ x.score))
              = a :: l.filter (fun x => decide (t₂ ≤ x.score)) from by simp [hpa],
            keptFor_cons_ne key a _ ha]
        · rw [show (a :: l).filter (fun x => decide (t₂ ≤ x.score))
              = l.filter (fun x => decide (t₂ ≤ x.score)) from by simp [hpa]]
      constructor
      · intro c hc
        rw [hskip] at hc
        rw [keptFor_cons_ne key a l ha]
        exact ih1 c hc
      · intro hnone b hb
        rw [hskip] at hnone
        rw [keptFor_cons_ne key a l ha] at hb
        exact ih2 hnone b hb

/-- C4: for a fixed kernel, query, corpus, chunking parameters and top-k,
raising the threshold from `t₁` to `t₂` can only remove matches: the
result at `t₂` has the same global similarity and its match list is
contained in the match list at `t₁`. -/
theorem threshold_filter_monotone (σ : Nat → Nat → ℚ) (qt : String)
    (corpus : List (String × String)) (cw sw k : Nat) (t₁ t₂ : ℚ) (h12 : t₁ ≤ t₂)
    (g : ℚ) (ms₂ : List Match)
    (h2 : compute_matches σ qt corpus cw sw k t₂ = some (Except.ok (g, ms₂))) :
    ∃ ms₁, compute_matches σ qt corpus cw sw k t₁ = some (Except.ok (g, ms₁)) ∧
      ∀ m ∈ ms₂, m ∈ ms₁ := by
  rw [compute_matches_def] at h2
  rw [compute_matches_def]
  cases hq : word_chunks (normalize_text qt) cw sw with
  | none => rw [hq] at h2; simp at h2
  | some qcs =>
    rw [hq, Option.some_bind] at h2
    rw [Option.some_bind]
    by_cases hqe : qcs = []
    · rw [if_pos hqe] at h2
      rw [if_pos hqe]
      simp only [Option.some_inj, Except.ok.injEq, Prod.mk.injEq] at h2
      obtain ⟨hg, hms⟩ := h2
      exact ⟨[], by rw [← hg], by rw [← hms]; simp⟩
    · rw [if_neg hqe] at h2
      rw [if_neg hqe]
      cases hd : docChunkMapOf corpus cw sw with
      | none => rw [hd] at h2; simp at h2
      | some dcm =>
        rw [hd, Option.some_bind] at h2
        rw [Option.some_bind]
        by_cases hde : dcm = []
        · rw [if_pos hde] at h2
          rw [if_pos hde]
          simp only [Option.some_inj, Except.ok.injEq, Prod.mk.injEq] at h2
          obtain ⟨hg, hms⟩ := h2
          exact ⟨[], by rw [← hg], by rw [← hms]; simp⟩
        · rw [if_neg hde] at h2
          rw [if_neg hde]
          by_cases hv : vocabularyOf (qcs ++ dcm.map Prod.snd) = []
          · rw [if_pos hv] at h2
            simp at h2
          · rw [if_neg hv] at h2
            rw [if_neg hv]
            simp only [Option.some_inj, Except.ok.injEq, Prod.mk.injEq] at h2
            obtain ⟨hg, hms⟩ := h2
            refine ⟨sortMatchesDesc ((uniqDict
              (candidateMatches σ qcs dcm k t₁)).map Prod.snd), by rw [← hg], ?_⟩
            intro m hm2
            rw [← hms] at hm2
            have hperm2 : List.Perm
                (sortMatchesDesc ((uniqDict (candidateMatches σ qcs dcm k t₂)).map
                  Prod.snd))
                ((uniqDict (candidateMatches σ qcs dcm k t₂)).map Prod.snd) :=
              List.perm_insertionSort _ _
            have hm2v := hperm2.mem_iff.mp hm2
            have hkept2 := (mem_uniqDict_values _ m).mp hm2v
            rw [candidateMatches_filter σ qcs dcm k t₁ t₂ h12] at hkept2
            have hkept1 := (keptFor_filter (keyOf m) t₂
              (candidateMatches σ qcs dcm k t₁)).1 m hkept2
            have hm1v := (mem_uniqDict_values _ m).mpr hkept1
            have hperm1 : List.Perm
                (sortMatchesDesc ((uniqDict (candidateMatches σ qcs dcm k t₁)).map
                  Prod.snd))
                ((uniqDict (candidateMatches σ qcs dcm k t₁)).map Prod.snd) :=
              List.perm_insertionSort _ _
            exact hperm1.mem_iff.mpr hm1v

theorem threshold_filter_monotone_witness :
    ∃ ms₁, compute_matches (fun _ _ => 1) "aa bb cc dd ee ff gg hh ii jj"
        [("doc", "aa bb cc dd ee ff gg hh ii jj")] 60 20 1 (1 / 2)
        = some (Except.ok (globalSimOf (fun _ _ => 1) 1 1, ms₁)) ∧
      ∀ m ∈ sortMatchesDesc ((uniqDict (candidateMatches (fun _ _ => 1)
          ["aa bb cc dd ee ff gg hh ii jj"] [("doc", "aa bb cc dd ee ff gg hh ii jj")]
          1 (3 / 4))).map Prod.snd), m ∈ ms₁ :=
  threshold_filter_monotone (fun _ _ => 1) "aa bb cc dd ee ff gg hh ii jj"
    [("doc", "aa bb cc dd ee ff gg hh ii jj")] 60 20 1 (1 / 2) (3 / 4)
    (by norm_num)
    (globalSimOf (fun _ _ => 1) 1 1)
    (sortMatchesDesc ((uniqDict (candidateMatches (fun _ _ => 1)
      ["aa bb cc dd ee ff gg hh ii jj"] [("doc", "aa bb cc dd ee ff gg hh ii jj")]
      1 (3 / 4))).map Prod.snd))
    (by
      rw [compute_matches_def,
        show word_chunks (normalize_text "aa bb cc dd ee ff gg hh ii jj") 60 20
          = some ["aa bb cc dd ee ff gg hh ii jj"] from by decide,
        Option.some_bind,
        if_neg (show ¬ (["aa bb cc dd ee ff gg hh ii jj"] = ([] : List String))
          from by decide),
        show docChunkMapOf [("doc", "aa bb cc dd ee ff gg hh ii jj")] 60 20
          = some [("doc", "aa bb cc dd ee ff gg hh ii jj")] from by decide,
        Option.some_bind,
        if_neg (show ¬ ([("doc", "aa bb cc dd ee ff gg hh ii jj")]
          = ([] : List (String × String))) from by decide),
        if_neg (show ¬ (vocabularyOf (["aa bb cc dd ee ff gg hh ii jj"]
          ++ ([("doc", "aa bb cc dd ee ff gg hh ii jj")].map Prod.snd)) = [])
          from by decide)]
      rfl)

/-! ### Highlighter claims -/

theorem subScan_succ_cons (toks : List (List Char)) (fuel : Nat) (c : Char)
    (cs : List Char) :
    subScan toks (fuel + 1) (c :: cs) =
      match matchTokensAt toks (c :: cs) with
      | some n =>
        if n = 0 then c :: subScan toks fuel cs
        else '⟦' :: ((c :: cs).take n ++ '⟧' :: subScan toks fuel ((c :: cs).drop n))
      | none => c :: subScan toks fuel cs := rfl

theorem hasFlexMatch_cons (toks : List (List Char)) (c : Char) (cs : List Char) :
    hasFlexMatch toks (c :: cs)
      = ((matchTokensAt toks (c :: cs)).isSome || hasFlexMatch toks cs) := rfl

theorem subScan_no_match (toks : List (List Char)) :
    ∀ (fuel : Nat) (cs : List Char), hasFlexMatch toks cs = false →
      subScan toks fuel cs = cs := by
  intro fuel
  induction fuel with
  | zero => intro cs _; rfl
  | succ fuel ih =>
    intro cs h
    cases cs with
    | nil => rfl
    | cons c cs =>
      rw [hasFlexMatch_cons] at h
      obtain ⟨h1, h2⟩ := Bool.or_eq_false_iff.mp h
      cases hm : matchTokensAt toks (c :: cs) with
      | some n => rw [hm] at h1; simp at h1
      | none =>
        rw [subScan_succ_cons, hm]
        exact congrArg (c :: ·) (ih cs h2)

theorem pyReSubFlex_no_match (toks : List (List Char)) (s : String)
    (h : hasFlexMatch toks s.data = false) :
    pyReSubFlex toks s = s := by
  unfold pyReSubFlex
  rw [subScan_no_match toks s.data.length s.data h]

/-- C9: `highlight_text` is a total fold of `highlightStep` over at most
the first 20 matches, so no match can abort the remaining ones; a match
whose snippet is shorter than 20 characters leaves the accumulated
output unchanged, and so does one whose pattern matches nowhere in the
accumulated output (the pattern, an escaped literal interleaved with
flexible whitespace, always compiles, so the `except re.error` branch
never fires). -/
theorem highlight_skips_and_never_aborts :
    (∀ (qt : String) (ms : List Match),
      highlight_text qt ms = (ms.take 20).foldl highlightStep qt) ∧
    (∀ (out : String) (m : Match), (snippetOf m).length < 20 →
      highlightStep out m = out) ∧
    (∀ (out : String) (m : Match),
      hasFlexMatch (snippetTokens m) out.data = false →
      highlightStep out m = out) := by
  refine ⟨fun qt ms => rfl, fun out m h => ?_, fun out m h => ?_⟩
  · unfold highlightStep
    rw [if_pos h]
  · unfold highlightStep
    by_cases hs : (snippetOf m).length < 20
    · rw [if_pos hs]
    · rw [if_neg hs]
      exact pyReSubFlex_no_match (snippetTokens m) out h

theorem highlight_skips_and_never_aborts_witness :
    highlightStep "hello" (Match.mk "ab" "d" "s" 1) = "hello" ∧
    highlightStep "nothing to see here"
      (Match.mk "aaaa bbbb cccc dddd eeee" "d" "s" 1) = "nothing to see here" :=
  ⟨highlight_skips_and_never_aborts.2.1 "hello" (Match.mk "ab" "d" "s" 1)
      (by decide),
   highlight_skips_and_never_aborts.2.2 "nothing to see here"
      (Match.mk "aaaa bbbb cccc dddd eeee" "d" "s" 1) (by decide)⟩

end Veritas
